import Mathlib

/-
Verification of the concurrent link-validation engine in src/main.py.

The Python source is shallowly embedded as pure Lean functions.  The network
environment (one aiohttp HEAD attempt, one optional GET attempt, wall-clock
time, the per-task fate under asyncio.gather) is supplied as explicit input
data to each function; everything the Python code itself computes on that
data is translated statement by statement.
-/

set_option maxHeartbeats 1000000

/-- Dataclass LinkInfo (src/main.py lines 18-26).  Durations are abstract
time units (Nat); Python float 0.0 is modelled as 0. -/
structure LinkInfo where
  text : String
  url : String
  status_code : Option Nat := none
  is_valid : Bool := false
  error : Option String := none
  domain : String := ""
  response_time : Nat := 0
  deriving DecidableEq, Inhabited

/-- Exception classes that `check_url_status` can see, abstracting the aiohttp
and asyncio hierarchy.  `respExc` is aiohttp.ClientResponseError, which carries
a status attribute; `connExc` is any other aiohttp.ClientError (statusAttr
models the `hasattr(e, "status")` test on it); `timeoutExc` is
asyncio.TimeoutError; `otherExc` is any other Exception. -/
inductive ClientExc where
  | timeoutExc : ClientExc
  | respExc (status : Nat) (msg : String) : ClientExc
  | connExc (statusAttr : Option Nat) (msg : String) : ClientExc
  | otherExc (msg : String) : ClientExc
  deriving DecidableEq

/-- One network attempt either returns a response with a status code or
raises an exception. -/
inductive AttemptOutcome where
  | ok (status : Nat) : AttemptOutcome
  | exc (e : ClientExc) : AttemptOutcome
  deriving DecidableEq

/-- The result dict built by `check_url_status` (src/main.py lines 159-165). -/
structure CheckResult where
  url : String
  status_code : Option Nat
  is_valid : Bool
  error : Option String
  response_time : Nat
  deriving DecidableEq, Inhabited

/-- The `hasattr(e, "status")` access used at src/main.py line 190. -/
def hasStatusAttr : ClientExc → Option Nat
  | .respExc s _ => some s
  | .connExc st _ => st
  | _ => none

/-- Membership in the `except (aiohttp.ClientResponseError, aiohttp.ClientError)`
clause at src/main.py line 188. -/
def isClientErrorClass : ClientExc → Bool
  | .respExc _ _ => true
  | .connExc _ _ => true
  | _ => false

/-- The fallback condition of src/main.py lines 188-193: the HEAD attempt
raised an aiohttp client error whose status attribute equals 405. -/
def headFallback : AttemptOutcome → Bool
  | .ok _ => false
  | .exc e => isClientErrorClass e && hasStatusAttr e == some 405

/-- Classification rule `200 <= status < 400` (src/main.py lines 184, 210, 218). -/
def statusValid (s : Nat) : Bool :=
  decide (200 ≤ s ∧ s < 400)

/-- The initial result dict (src/main.py lines 159-165). -/
def initResult (url : String) : CheckResult :=
  { url := url
    status_code := none
    is_valid := false
    error := none
    response_time := 0 }

/-- Filling the result dict from a response object
(src/main.py lines 183-186 and 209-212). -/
def okResult (url : String) (s : Nat) (elapsed : Nat) : CheckResult :=
  { url := url
    status_code := some s
    is_valid := statusValid s
    error := none
    response_time := elapsed }

/-- The outer exception handlers of src/main.py lines 214-226, applied to an
exception that escaped the inner HEAD handling (or was raised by the GET). -/
def outerHandle (url : String) (e : ClientExc) (elapsed : Nat) : CheckResult :=
  match e with
  | .timeoutExc =>
    { initResult url with error := some "Timeout", response_time := elapsed }
  | .respExc s msg =>
    { initResult url with
      status_code := some s
      is_valid := statusValid s
      error := some msg
      response_time := elapsed }
  | .connExc _ msg =>
    { initResult url with
      error := some ("Network: " ++ msg)
      response_time := elapsed }
  | .otherExc msg =>
    { initResult url with
      error := some ("Unknown: " ++ msg)
      response_time := elapsed }

/-- check_url_status (src/main.py lines 156-226).  `head` is the outcome the
environment gives the HEAD request, `get` the outcome it would give the
range-limited GET, and `elapsed` the measured wall time at the moment the
result is finalized. -/
def check_url_status (url : String) (head get : AttemptOutcome)
    (elapsed : Nat) : CheckResult :=
  match head with
  | .ok s => okResult url s elapsed
  | .exc e =>
    if headFallback (.exc e) then
      match get with
      | .ok s => okResult url s elapsed
      | .exc e2 => outerHandle url e2 elapsed
    else
      outerHandle url e elapsed

/-- An outbound HTTP request issued by `check_url_status`. -/
inductive HttpRequest where
  | headReq (url : String) : HttpRequest
  | getReq (url : String) (range : String) : HttpRequest
  deriving DecidableEq

/-- The requests `check_url_status` actually issues: the HEAD of line 170
always, and the GET of lines 196-206 (with header Range: bytes=0-1023)
exactly when the fallback of lines 188-193 fires. -/
def check_url_requests (url : String) (head : AttemptOutcome) :
    List HttpRequest :=
  if headFallback head then [.headReq url, .getReq url "bytes=0-1023"]
  else [.headReq url]

/-- Fate of one probe task under `asyncio.gather(..., return_exceptions=True)`
(src/main.py line 275): either `check_url_status` ran to completion on the
given attempt outcomes, or the task itself failed with an exception.  The
`elapsed` argument of `crashed` is the wall time the failed task consumed;
the code has no access to it. -/
inductive TaskOutcome where
  | completed (head get : AttemptOutcome) (elapsed : Nat) : TaskOutcome
  | crashed (msg : String) (elapsed : Nat) : TaskOutcome
  deriving DecidableEq

/-- The per-link writeback of src/main.py lines 277-287: on a crashed task the
dict is just the error entry, so the `.get` defaults none/False/0.0 apply;
otherwise the fields of the `check_url_status` result are copied onto the link. -/
def applyTask (link : LinkInfo) (t : TaskOutcome) : LinkInfo :=
  match t with
  | .completed head get elapsed =>
    let r := check_url_status link.url head get elapsed
    { link with
      status_code := r.status_code
      is_valid := r.is_valid
      error := r.error
      response_time := r.response_time }
  | .crashed msg _ =>
    { link with
      status_code := none
      is_valid := false
      error := some msg
      response_time := 0 }

/-- Fuel-indexed batching: `range(0, len(items), 20)` slicing of
src/main.py lines 272-273, written structurally so it evaluates by `decide`. -/
def chunksFuel : Nat → List (Nat × LinkInfo) → List (List (Nat × LinkInfo))
  | 0, _ => []
  | _, [] => []
  | fuel + 1, p :: rest => (p :: rest.take 19) :: chunksFuel fuel (rest.drop 19)

/-- The batches of size 20 a domain group is processed in (src/main.py line 272). -/
def chunksOf20 (items : List (Nat × LinkInfo)) : List (List (Nat × LinkInfo)) :=
  chunksFuel items.length items

/-- process_domain (src/main.py lines 269-292): each batch is gathered and its
results appended in batch order; `oracle i` is the fate of the task for the
item carrying original index `i`. -/
def process_domain (oracle : Nat → TaskOutcome)
    (items : List (Nat × LinkInfo)) : List LinkInfo :=
  ((chunksOf20 items).map
    (fun batch => batch.map (fun p => applyTask p.2 (oracle p.1)))).flatten

/-- Insertion into the insertion-ordered dict `domain_groups`
(src/main.py lines 240-242). -/
def addToGroup (gs : List (String × List (Nat × LinkInfo))) (d : String)
    (p : Nat × LinkInfo) : List (String × List (Nat × LinkInfo)) :=
  match gs with
  | [] => [(d, [p])]
  | g :: rest =>
    if g.1 = d then (g.1, g.2 ++ [p]) :: rest else g :: addToGroup rest d p

/-- domain_groups (src/main.py lines 238-242): host, in insertion order, to
the ordered list of (original index, link) pairs with that host. -/
def domain_groups (links : List LinkInfo) :
    List (String × List (Nat × LinkInfo)) :=
  links.enum.foldl (fun gs p => addToGroup gs p.2.domain p) []

/-- Dict lookup in the grouping produced by `domain_groups`. -/
def groupVal (gs : List (String × List (Nat × LinkInfo))) (d : String) :
    List (Nat × LinkInfo) :=
  match gs with
  | [] => []
  | g :: rest => if g.1 = d then g.2 else groupVal rest d

/-- One step of the aggregation loop of src/main.py lines 308-314: scan the
original list for the first slot whose url matches and is still unfilled, and
write the completed link there.  The urls compared are unchanged by probing
(theorem applyTask_url below), so scanning the original list is the same
comparison the mutated Python objects perform. -/
def placeLink (origs : List LinkInfo) (acc : List (Option LinkInfo))
    (l : LinkInfo) : List (Option LinkInfo) :=
  match origs, acc with
  | [], _ => acc
  | _ :: _, [] => []
  | o :: os, s :: ss =>
    if o.url = l.url ∧ s = none then some l :: ss
    else s :: placeLink os ss l

/-- check_links_ultra_fast (src/main.py lines 228-316): group by domain, run
process_domain per group (asyncio.gather keeps the group order of line 295),
then re-match completed links into `all_results` by url and drop empty slots. -/
def check_links_ultra_fast (oracle : Nat → TaskOutcome)
    (links : List LinkInfo) : List LinkInfo :=
  let stream :=
    ((domain_groups links).map (fun g => process_domain oracle g.2)).flatten
  let allResults := stream.foldl (placeLink links)
    (List.replicate links.length none)
  allResults.filterMap id

-- short sanity checks of the embedding on concrete data (kept as examples)

/-- Concatenation of the per-domain item lists, in dict order: the order in
which completed links reach the aggregation loop of src/main.py lines 308-314. -/
def streamPairs (links : List LinkInfo) : List (Nat × LinkInfo) :=
  ((domain_groups links).map Prod.snd).flatten

/-- Number of still-unfilled aggregation slots whose original link has url u. -/
def emptyCount (origs : List LinkInfo) (acc : List (Option LinkInfo))
    (u : String) : Nat :=
  (origs.zip acc).countP (fun q => q.1.url = u ∧ q.2 = none)

/-- Number of still-unfilled aggregation slots. -/
def noneCount (acc : List (Option LinkInfo)) : Nat :=
  acc.countP (fun s => s = none)

/-- Concrete input of the C1 witness: the duplicate-url scenario of the spec,
with the domain derived from the url as upstream produces it. -/
def c1WitnessLinks : List LinkInfo :=
  [{ text := "A", url := "http://x/ok", domain := "x" },
   { text := "B", url := "http://x/ok", domain := "x" },
   { text := "C", url := "http://y/404", domain := "y" }]

/-- Concrete environment of the C1 witness: x/ok answers 200, y/404
answers 404. -/
def c1WitnessOracle : Nat → TaskOutcome :=
  fun i => if i = 2 then .completed (.ok 404) (.ok 404) 1
    else .completed (.ok 200) (.ok 200) 1

/-- Result of urlparse on an absolute url, as data. -/
structure ParsedUrl where
  scheme : String
  netloc : String
  path : String
  params : String
  query : String
  fragment : String
  deriving DecidableEq, Inhabited

/-- Python string slicing s[:n], by characters (kernel-reducible). -/
def strTake (s : String) (n : Nat) : String :=
  String.mk (s.data.take n)

/-- Python str.startswith, by characters (kernel-reducible). -/
def strStartsWith (s pre : String) : Bool :=
  pre.data.isPrefixOf s.data

/-- Python str.replace for a one-character pattern, by characters
(kernel-reducible). -/
def strReplaceChar (s : String) (c r : Char) : String :=
  String.mk (s.data.map (fun x => if x = c then r else x))

/-- CPython urllib.parse.urlunsplit, used by ParseResult.geturl. -/
def urlunsplitModel (scheme netloc url query fragment : String) : String :=
  let url1 := if netloc ≠ "" ∨ (url ≠ "" ∧ strTake url 2 = "//") then
      (if url ≠ "" ∧ strTake url 1 ≠ "/" then "//" ++ netloc ++ "/" ++ url
       else "//" ++ netloc ++ url)
    else url
  let url2 := if scheme ≠ "" then scheme ++ ":" ++ url1 else url1
  let url3 := if query ≠ "" then url2 ++ "?" ++ query else url2
  if fragment ≠ "" then url3 ++ "#" ++ fragment else url3

/-- CPython urllib.parse.urlunparse composed on a ParsedUrl: the geturl call
of src/main.py line 128. -/
def geturl (p : ParsedUrl) : String :=
  urlunsplitModel p.scheme p.netloc
    (if p.params ≠ "" then p.path ++ ";" ++ p.params else p.path)
    p.query p.fragment

/-- One anchor element of the page, as the loop of src/main.py lines 113-142
sees it: the raw href attribute (possibly missing), the stripped text, and
the parse urlparse(urljoin(base_url, href)) of src/main.py lines 123-124,
supplied as data since the url arithmetic happens in urllib on the already
resolved href. -/
structure Anchor where
  href : Option String
  text : String
  parsed : ParsedUrl
  deriving DecidableEq, Inhabited

/-- The scheme filter of src/main.py line 119. -/
def badSchemes : List String :=
  ["javascript:", "mailto:", "tel:", "file:", "#", "about:", "data:"]

/-- The relevance filter of src/main.py line 119: skip missing or empty hrefs
and the listed schemes. -/
def skipHref : Option String → Bool
  | none => true
  | some h => h = "" || badSchemes.any (fun s => strStartsWith h s)

/-- Normalization of src/main.py lines 125-128: drop fragment and query, then
reassemble the url string. -/
def normalized_url (p : ParsedUrl) : String :=
  geturl { p with fragment := "", query := "" }

/-- Display-text truncation of src/main.py line 136. -/
def display_text (text : String) : String :=
  strReplaceChar (strReplaceChar (strTake text 100) (Char.ofNat 10) ' ')
      (Char.ofNat 13) ' '
    ++ (if text.length > 100 then "..." else "")

/-- The collection loop of src/main.py lines 113-142, with the seen_urls set
threaded through. -/
def collectLinks (pageDomain : String) :
    List Anchor → List String → List LinkInfo
  | [], _ => []
  | a :: rest, seen =>
    if skipHref a.href then collectLinks pageDomain rest seen
    else
      let nu := normalized_url a.parsed
      if nu ∈ seen ∨ nu.length > 4096 then collectLinks pageDomain rest seen
      else
        let dt := display_text a.text
        { text := if dt ≠ "" then dt else strTake nu 50
          url := nu
          domain := if a.parsed.netloc ≠ "" then a.parsed.netloc
            else pageDomain } :: collectLinks pageDomain rest (nu :: seen)

/-- get_links_with_selenium (src/main.py lines 74-154), reduced to its pure
collection loop: the page fetch is the environment, handing over the anchor
list and the page domain urlparse(base_url).netloc of line 107. -/
def get_links_with_selenium (pageDomain : String)
    (anchors : List Anchor) : List LinkInfo :=
  collectLinks pageDomain anchors []

/-- Concrete anchor list of the C10 witness. -/
def c10WitnessAnchors : List Anchor :=
  [{ href := some "http://h/p"
     text := "T"
     parsed := ⟨"http", "h", "/p", "", "q", "f"⟩ }]

/-- Concrete emitted link of the C10 witness. -/
def c10WitnessLink : LinkInfo :=
  { text := "T", url := "http://h/p", domain := "h" }

/-- Probing writes only the outcome fields: text survives. -/
theorem applyTask_text (l : LinkInfo) (t : TaskOutcome) :
    (applyTask l t).text = l.text := by
  cases t <;> rfl

/-- Probing writes only the outcome fields: url survives. -/
theorem applyTask_url (l : LinkInfo) (t : TaskOutcome) :
    (applyTask l t).url = l.url := by
  cases t <;> rfl

/-- Probing writes only the outcome fields: domain survives. -/
theorem applyTask_domain (l : LinkInfo) (t : TaskOutcome) :
    (applyTask l t).domain = l.domain := by
  cases t <;> rfl

theorem chunksFuel_flatten (fuel : Nat) :
    ∀ items : List (Nat × LinkInfo), items.length ≤ fuel →
      (chunksFuel fuel items).flatten = items := by
  induction fuel with
  | zero =>
    intro items h
    have : items = [] := List.length_eq_zero.mp (Nat.le_zero.mp h)
    simp [this, chunksFuel]
  | succ n ih =>
    intro items h
    match items with
    | [] => simp [chunksFuel]
    | p :: rest =>
      have hlen : (rest.drop 19).length ≤ n := by
        simp only [List.length_drop]
        have : rest.length + 1 ≤ n + 1 := by simpa [List.length_cons] using h
        omega
      simp only [chunksFuel, List.flatten_cons, ih _ hlen, List.cons_append]
      rw [List.take_append_drop]

/-- Flattening the batches recovers the item list. -/
theorem chunksOf20_flatten (items : List (Nat × LinkInfo)) :
    (chunksOf20 items).flatten = items :=
  chunksFuel_flatten items.length items (Nat.le_refl _)

/-- The batching of process_domain emits exactly the per-item writeback,
in item order. -/
theorem process_domain_eq_map (oracle : Nat → TaskOutcome)
    (items : List (Nat × LinkInfo)) :
    process_domain oracle items
      = items.map (fun p => applyTask p.2 (oracle p.1)) := by
  unfold process_domain
  rw [← List.map_flatten, chunksOf20_flatten]

theorem statusValid_iff (s : Nat) :
    statusValid s = true ↔ 200 ≤ s ∧ s < 400 := by
  simp [statusValid]

/-- C2 counterexample: against the claim, a HEAD attempt that yields HTTP 405
as an ordinary response (aiohttp raises no exception here, since the session
is created without raise_for_status) triggers no GET fallback at all, and the
returned outcome is the 405 itself, not the GET status (200 here). -/
theorem c2_counterexample :
    check_url_requests "http://a/h" (.ok 405) = [.headReq "http://a/h"] ∧
    (check_url_status "http://a/h" (.ok 405) (.ok 200) 1).status_code
      = some 405 ∧
    (check_url_status "http://a/h" (.ok 405) (.ok 200) 1).is_valid = false := by
  decide

/-- C2 (amended): the GET fallback (a single extra request with byte-range
header bytes=0-1023) fires exactly when the HEAD attempt raises an aiohttp
client error whose status attribute is 405; then the outcome reflects the GET
status.  A HEAD attempt that returns a status normally - 405 included - or
that fails with any exception whose status attribute is not 405, is terminal:
no fallback is issued and the outcome comes from the HEAD attempt alone. -/
theorem c2_head_fallback (url msg : String) (get : AttemptOutcome)
    (elapsed : Nat) :
    (check_url_requests url (.exc (.respExc 405 msg))
      = [.headReq url, .getReq url "bytes=0-1023"]) ∧
    (∀ s : Nat, get = .ok s →
      (check_url_status url (.exc (.respExc 405 msg)) get elapsed).status_code
        = some s) ∧
    (∀ e : ClientExc, hasStatusAttr e ≠ some 405 →
      check_url_requests url (.exc e) = [.headReq url] ∧
      check_url_status url (.exc e) get elapsed = outerHandle url e elapsed) ∧
    (∀ s : Nat, check_url_requests url (.ok s) = [.headReq url]) := by
  refine ⟨rfl, ?_, ?_, fun s => rfl⟩
  · rintro s rfl
    rfl
  · intro e he
    have hfb : headFallback (.exc e) = false := by
      cases e with
      | timeoutExc => rfl
      | otherExc m => rfl
      | respExc s m =>
        simp only [headFallback, isClientErrorClass, Bool.true_and,
          beq_eq_false_iff_ne]
        exact he
      | connExc st m =>
        simp only [headFallback, isClientErrorClass, Bool.true_and,
          beq_eq_false_iff_ne]
        exact he
    constructor
    · simp [check_url_requests, hfb]
    · simp [check_url_status, hfb]

/-- C2 witness: concrete instances of the amended fallback behavior. -/
theorem c2_head_fallback_witness :
    (check_url_requests "u" (.exc (.respExc 405 "m"))
      = [.headReq "u", .getReq "u" "bytes=0-1023"]) ∧
    (check_url_status "u" (.exc (.respExc 405 "m")) (.ok 200) 2).status_code
      = some 200 ∧
    check_url_requests "u" (.exc .timeoutExc) = [.headReq "u"] :=
  ⟨(c2_head_fallback "u" "m" (.ok 200) 2).1,
   (c2_head_fallback "u" "m" (.ok 200) 2).2.1 200 rfl,
   ((c2_head_fallback "u" "m" (.ok 200) 2).2.2.1 .timeoutExc
     (by decide)).1⟩

/-- C3: whenever the finished probe result carries a status code - whether it
came from a normal HEAD or GET response or from an HTTP-status error surfaced
as a ClientResponseError exception - is_valid holds exactly for
200 <= status < 400; when no status code is present, is_valid is false.  A
terminal ClientResponseError (any non-405 one from the HEAD, or any one from
the fallback GET) still gets its status captured into the outcome. -/
theorem c3_classification (url : String) (head get : AttemptOutcome)
    (elapsed : Nat) :
    (∀ s : Nat, (check_url_status url head get elapsed).status_code = some s →
      ((check_url_status url head get elapsed).is_valid = true ↔
        200 ≤ s ∧ s < 400)) ∧
    ((check_url_status url head get elapsed).status_code = none →
      (check_url_status url head get elapsed).is_valid = false) ∧
    (∀ s msg, s ≠ 405 → head = .exc (.respExc s msg) →
      (check_url_status url head get elapsed).status_code = some s) ∧
    (∀ s msg, headFallback head = true → get = .exc (.respExc s msg) →
      (check_url_status url head get elapsed).status_code = some s) := by
  refine ⟨?_, ?_, ?_, ?_⟩
  · intro s hs
    cases head with
    | ok s0 =>
      simp only [check_url_status, okResult] at hs ⊢
      cases hs
      exact statusValid_iff s
    | exc e =>
      simp only [check_url_status] at hs ⊢
      by_cases hfb : headFallback (.exc e) = true
      · rw [hfb] at hs ⊢
        simp only [if_true] at hs ⊢
        cases get with
        | ok s0 =>
          simp only [okResult] at hs ⊢
          cases hs
          exact statusValid_iff s
        | exc e2 =>
          cases e2 <;> simp_all [outerHandle, initResult]
          exact statusValid_iff s
      · rw [Bool.not_eq_true] at hfb
        rw [hfb] at hs ⊢
        simp only [Bool.false_eq_true, if_false] at hs ⊢
        cases e <;> simp_all [outerHandle, initResult]
        exact statusValid_iff s
  · intro hs
    cases head with
    | ok s0 => simp [check_url_status, okResult] at hs
    | exc e =>
      simp only [check_url_status] at hs ⊢
      by_cases hfb : headFallback (.exc e) = true
      · rw [hfb] at hs ⊢
        simp only [if_true] at hs ⊢
        cases get with
        | ok s0 => simp [okResult] at hs
        | exc e2 => cases e2 <;> simp_all [outerHandle, initResult]
      · rw [Bool.not_eq_true] at hfb
        rw [hfb] at hs ⊢
        simp only [Bool.false_eq_true, if_false] at hs ⊢
        cases e <;> simp_all [outerHandle, initResult]
  · rintro s msg hne rfl
    have hfb : headFallback (.exc (.respExc s msg)) = false := by
      simp only [headFallback, isClientErrorClass, Bool.true_and,
        beq_eq_false_iff_ne, hasStatusAttr]
      simpa using hne
    simp [check_url_status, hfb, outerHandle, initResult]
  · rintro s msg hfb rfl
    cases head with
    | ok s0 => simp [headFallback] at hfb
    | exc e => simp [check_url_status, hfb, outerHandle, initResult]

/-- C3 witness: a 500 surfaced as a ClientResponseError keeps its status and
is classified invalid; a timeout has no status and is invalid. -/
theorem c3_classification_witness :
    (check_url_status "u" (.exc (.respExc 500 "err")) (.ok 200) 3).status_code
      = some 500 ∧
    ((check_url_status "u" (.exc (.respExc 500 "err")) (.ok 200) 3).is_valid
      = true ↔ 200 ≤ 500 ∧ 500 < 400) ∧
    (check_url_status "u" (.exc .timeoutExc) (.ok 200) 3).is_valid = false := by
  have h := c3_classification "u" (.exc (.respExc 500 "err")) (.ok 200) 3
  have hcap := h.2.2.1 500 "err" (by decide) rfl
  refine ⟨hcap, h.1 500 hcap, ?_⟩
  exact (c3_classification "u" (.exc .timeoutExc) (.ok 200) 3).2.1 (by decide)

/-- C4: per-link failures are resolved locally into the result.  An unexpected
exception at either attempt is recorded as an Unknown error with no status
code; a task that itself fails under gather is written back onto its link
(error only, defaults elsewhere); and the batch always emits exactly one
result per item, so it proceeds to completion once all members resolve. -/
theorem c4_error_containment (url m m2 : String) (get : AttemptOutcome)
    (elapsed tcrash : Nat) (l0 : LinkInfo) (oracle : Nat → TaskOutcome)
    (items : List (Nat × LinkInfo)) :
    ((check_url_status url (.exc (.otherExc m)) get elapsed).error
        = some ("Unknown: " ++ m) ∧
      (check_url_status url (.exc (.otherExc m)) get elapsed).status_code
        = none ∧
      (check_url_status url (.exc (.otherExc m)) get elapsed).response_time
        = elapsed) ∧
    ((check_url_status url (.exc (.respExc 405 m2)) (.exc (.otherExc m))
        elapsed).error = some ("Unknown: " ++ m) ∧
      (check_url_status url (.exc (.respExc 405 m2)) (.exc (.otherExc m))
        elapsed).status_code = none) ∧
    (applyTask l0 (.crashed m tcrash)).error = some m ∧
    (applyTask l0 (.crashed m tcrash)).status_code = none ∧
    (process_domain oracle items).length = items.length := by
  refine ⟨⟨rfl, rfl, rfl⟩, ⟨rfl, rfl⟩, rfl, rfl, ?_⟩
  rw [process_domain_eq_map, List.length_map]

/-- C5: a timeout at the HEAD attempt, or at the GET fallback after a
405-status client error from the HEAD, yields error Timeout and no status
code (and the outcome is classified invalid). -/
theorem c5_timeout (url msg : String) (get : AttemptOutcome) (elapsed : Nat) :
    ((check_url_status url (.exc .timeoutExc) get elapsed).error
        = some "Timeout" ∧
      (check_url_status url (.exc .timeoutExc) get elapsed).status_code
        = none ∧
      (check_url_status url (.exc .timeoutExc) get elapsed).is_valid
        = false) ∧
    ((check_url_status url (.exc (.respExc 405 msg)) (.exc .timeoutExc)
        elapsed).error = some "Timeout" ∧
      (check_url_status url (.exc (.respExc 405 msg)) (.exc .timeoutExc)
        elapsed).status_code = none ∧
      (check_url_status url (.exc (.respExc 405 msg)) (.exc .timeoutExc)
        elapsed).is_valid = false) :=
  ⟨⟨rfl, rfl, rfl⟩, ⟨rfl, rfl, rfl⟩⟩

/-- C6 counterexample: against the claim, a link whose probe task itself fails
is emitted with response_time 0 - the dict-get default of src/main.py
line 286 - even though the failed task consumed a positive wall time
(5 units here), so its elapsed time is not the measured duration. -/
theorem c6_counterexample :
    (process_domain (fun _ => .crashed "boom" 5)
        [(0, { text := "t", url := "u", domain := "d" })]).map
      (fun l => l.response_time) = [0] := by
  decide

/-- C6 (amended): every path through check_url_status - HEAD success, GET
fallback, and each failure handler - records the measured elapsed time on the
result, and every link emitted by process_domain carries the elapsed time of
its completed probe; links whose task crashed instead get the 0.0 default,
not a measured duration. -/
theorem c6_response_time (url : String) (head get : AttemptOutcome)
    (elapsed : Nat) (oracle : Nat → TaskOutcome)
    (items : List (Nat × LinkInfo)) :
    (check_url_status url head get elapsed).response_time = elapsed ∧
    (process_domain oracle items).map (fun l => l.response_time)
      = items.map (fun p =>
          match oracle p.1 with
          | .completed _ _ t => t
          | .crashed _ _ => 0) := by
  constructor
  · cases head with
    | ok s => rfl
    | exc e =>
      by_cases hfb : headFallback (.exc e) = true
      · simp only [check_url_status, hfb, if_true]
        cases get with
        | ok s => rfl
        | exc e2 => cases e2 <;> rfl
      · rw [Bool.not_eq_true] at hfb
        simp only [check_url_status, hfb, Bool.false_eq_true, if_false]
        cases e <;> rfl
  · rw [process_domain_eq_map, List.map_map]
    apply List.map_congr_left
    intro p _
    cases h : oracle p.1 with
    | completed hd gt t =>
      simp only [Function.comp_apply, h, applyTask]
      cases hd with
      | ok s => rfl
      | exc e =>
        by_cases hfb : headFallback (.exc e) = true
        · simp only [check_url_status, hfb, if_true]
          cases gt with
          | ok s => rfl
          | exc e2 => cases e2 <;> rfl
        · rw [Bool.not_eq_true] at hfb
          simp only [check_url_status, hfb, Bool.false_eq_true, if_false]
          cases e <;> rfl
    | crashed m t => simp only [Function.comp_apply, h, applyTask]

/-- C9: probing mutates only the outcome fields; each emitted entry is the
input link of its item with status_code, is_valid, error and response_time
overwritten, and its text, url and domain are unchanged. -/
theorem c9_frame (oracle : Nat → TaskOutcome)
    (items : List (Nat × LinkInfo)) :
    process_domain oracle items
      = items.map (fun p => applyTask p.2 (oracle p.1)) ∧
    ∀ (l : LinkInfo) (t : TaskOutcome),
      (applyTask l t).text = l.text ∧ (applyTask l t).url = l.url ∧
      (applyTask l t).domain = l.domain :=
  ⟨process_domain_eq_map oracle items,
   fun l t => ⟨applyTask_text l t, applyTask_url l t, applyTask_domain l t⟩⟩

theorem groupVal_addToGroup_self (gs : List (String × List (Nat × LinkInfo)))
    (d : String) (p : Nat × LinkInfo) :
    groupVal (addToGroup gs d p) d = groupVal gs d ++ [p] := by
  induction gs with
  | nil => simp [addToGroup, groupVal]
  | cons g rest ih =>
    by_cases hg : g.1 = d
    · simp [addToGroup, groupVal, hg]
    · simp [addToGroup, groupVal, hg, ih]

theorem groupVal_addToGroup_ne (gs : List (String × List (Nat × LinkInfo)))
    (d d' : String) (p : Nat × LinkInfo) (h : d' ≠ d) :
    groupVal (addToGroup gs d p) d' = groupVal gs d' := by
  have hdd : ¬ d = d' := fun he => h he.symm
  induction gs with
  | nil => simp [addToGroup, groupVal, hdd]
  | cons g rest ih =>
    obtain ⟨k, v⟩ := g
    by_cases hg : k = d
    · subst hg
      have hk : ¬ k = d' := fun he => h he.symm
      simp [addToGroup, groupVal, hk]
    · by_cases hg' : k = d'
      · simp [addToGroup, groupVal, hg, hg', h]
      · simp [addToGroup, groupVal, hg, hg', h, ih]

theorem groupVal_foldl (ps : List (Nat × LinkInfo)) :
    ∀ (gs0 : List (String × List (Nat × LinkInfo))) (d : String),
      groupVal (ps.foldl (fun gs p => addToGroup gs p.2.domain p) gs0) d
        = groupVal gs0 d ++ ps.filter (fun p => p.2.domain = d) := by
  induction ps with
  | nil => intro gs0 d; simp
  | cons p rest ih =>
    intro gs0 d
    simp only [List.foldl_cons, ih]
    by_cases hd : p.2.domain = d
    · subst hd
      rw [groupVal_addToGroup_self]
      simp [List.filter_cons]
    · rw [groupVal_addToGroup_ne _ _ _ _ (fun he => hd he.symm)]
      simp [List.filter_cons, hd]

theorem keys_addToGroup (gs : List (String × List (Nat × LinkInfo)))
    (d : String) (p : Nat × LinkInfo) :
    (addToGroup gs d p).map Prod.fst
      = if d ∈ gs.map Prod.fst then gs.map Prod.fst
        else gs.map Prod.fst ++ [d] := by
  induction gs with
  | nil => simp [addToGroup]
  | cons g rest ih =>
    by_cases hg : g.1 = d
    · simp [addToGroup, hg]
    · have : ¬ d = g.1 := fun he => hg he.symm
      by_cases hm : d ∈ rest.map Prod.fst
      · simp [addToGroup, hg, ih, hm, this]
      · simp [addToGroup, hg, ih, hm, this]

theorem keys_foldl_nodup (ps : List (Nat × LinkInfo)) :
    ∀ gs0 : List (String × List (Nat × LinkInfo)),
      (gs0.map Prod.fst).Nodup →
      ((ps.foldl (fun gs p => addToGroup gs p.2.domain p) gs0).map
        Prod.fst).Nodup := by
  induction ps with
  | nil => intro gs0 h; simpa using h
  | cons p rest ih =>
    intro gs0 h
    simp only [List.foldl_cons]
    apply ih
    rw [keys_addToGroup]
    by_cases hm : p.2.domain ∈ gs0.map Prod.fst
    · simpa [hm] using h
    · simp only [hm, if_false]
      simp only [List.nodup_append, List.nodup_cons, List.nodup_nil,
        List.disjoint_singleton]
      exact ⟨h, by simp, by simpa using hm⟩

/-- C7: the domain partitioner sends every host d - the empty fallback host
string included - to exactly the ordered subsequence of (original index,
candidate) pairs whose candidate has that host, and each host owns a single
bucket (the dict keys are distinct); the grouping is total, never a failure. -/
theorem c7_domain_partitioner (links : List LinkInfo) (d : String) :
    groupVal (domain_groups links) d
      = links.enum.filter (fun p => p.2.domain = d) ∧
    ((domain_groups links).map Prod.fst).Nodup := by
  constructor
  · have h := groupVal_foldl links.enum [] d
    simpa [groupVal] using h
  · exact keys_foldl_nodup links.enum [] (by simp)

theorem flatten_addToGroup (gs : List (String × List (Nat × LinkInfo)))
    (d : String) (p : Nat × LinkInfo) :
    List.Perm ((addToGroup gs d p).map Prod.snd).flatten
      ((gs.map Prod.snd).flatten ++ [p]) := by
  induction gs with
  | nil => simp [addToGroup]
  | cons g rest ih =>
    by_cases hg : g.1 = d
    · simp only [addToGroup, if_pos hg, List.map_cons, List.flatten_cons,
        List.append_assoc]
      exact List.Perm.append_left g.2 List.perm_append_comm
    · simp only [addToGroup, if_neg hg, List.map_cons, List.flatten_cons,
        List.append_assoc]
      exact List.Perm.append_left g.2 ih

theorem flatten_foldl_perm (ps : List (Nat × LinkInfo)) :
    ∀ gs0 : List (String × List (Nat × LinkInfo)),
      List.Perm (((ps.foldl (fun gs p => addToGroup gs p.2.domain p) gs0).map
        Prod.snd).flatten) (((gs0.map Prod.snd).flatten) ++ ps) := by
  induction ps with
  | nil => intro gs0; simp
  | cons p rest ih =>
    intro gs0
    simp only [List.foldl_cons]
    refine (ih _).trans ?_
    have h1 := (flatten_addToGroup gs0 p.2.domain p).append_right rest
    refine h1.trans ?_
    simp

/-- The aggregation loop sees each (index, link) pair exactly once: the
stream is a permutation of the enumerated input. -/
theorem streamPairs_perm (links : List LinkInfo) :
    List.Perm (streamPairs links) links.enum := by
  have h := flatten_foldl_perm links.enum []
  simpa [streamPairs, domain_groups] using h

/-- Each pair in the stream is genuine: it is the input link at its index. -/
theorem streamPairs_getElem (links : List LinkInfo) :
    ∀ p ∈ streamPairs links, links[p.1]? = some p.2 := by
  intro p hp
  have hp2 : p ∈ links.enum := (streamPairs_perm links).mem_iff.mp hp
  have := List.mem_enum_iff_getElem?.mp hp2
  simpa using this

theorem enum_pairwise (links : List LinkInfo) :
    links.enum.Pairwise (fun p q => p.1 < q.1) := by
  rw [List.pairwise_iff_getElem]
  intro i j hi hj hij
  simp only [List.enum_eq_enumFrom] at hi hj ⊢
  rw [List.getElem_enumFrom, List.getElem_enumFrom]
  simpa using hij

theorem groupVal_of_mem :
    ∀ gs : List (String × List (Nat × LinkInfo)),
      (gs.map Prod.fst).Nodup → ∀ g ∈ gs, groupVal gs g.1 = g.2 := by
  intro gs
  induction gs with
  | nil => intro _ g hg; cases hg
  | cons g0 rest ih =>
    intro hnd g hg
    rw [List.map_cons, List.nodup_cons] at hnd
    rcases List.mem_cons.mp hg with rfl | hmem
    · simp [groupVal]
    · have hkey : ¬ g0.1 = g.1 := by
        intro he
        exact hnd.1 (he ▸ List.mem_map_of_mem Prod.fst hmem)
      simp only [groupVal, if_neg hkey]
      exact ih hnd.2 g hmem

/-- Every bucket of the partition is the order-preserving restriction of the
enumerated input to its host. -/
theorem mem_group_filter (links : List LinkInfo) :
    ∀ g ∈ domain_groups links,
      g.2 = links.enum.filter (fun p => p.2.domain = g.1) := by
  intro g hg
  have hnd := keys_foldl_nodup links.enum [] (by simp)
  have h1 := groupVal_of_mem _ hnd g hg
  have h2 := groupVal_foldl links.enum [] g.1
  rw [← h1]
  simpa [groupVal, domain_groups] using h2

/-- When equal urls imply equal domains, distinct pairs of the stream have
distinct indices and equal-url pairs keep their index order. -/
theorem streamPairs_pairwise (links : List LinkInfo)
    (h : ∀ l1 ∈ links, ∀ l2 ∈ links, l1.url = l2.url → l1.domain = l2.domain) :
    (streamPairs links).Pairwise
      (fun p q => p.1 ≠ q.1 ∧ (p.2.url = q.2.url → p.1 < q.1)) := by
  unfold streamPairs
  rw [List.pairwise_flatten]
  constructor
  · intro l' hl'
    rcases List.mem_map.mp hl' with ⟨g, hg, rfl⟩
    have hfil := mem_group_filter links g hg
    have hsub : g.2.Sublist links.enum := by
      rw [hfil]; exact List.filter_sublist _
    have hpw := (enum_pairwise links).sublist hsub
    exact hpw.imp (fun hlt => ⟨Nat.ne_of_lt hlt, fun _ => hlt⟩)
  · rw [List.pairwise_map]
    have hnd := keys_foldl_nodup links.enum [] (by simp)
    have hpwkeys : (domain_groups links).Pairwise (fun a b => a.1 ≠ b.1) :=
      List.pairwise_map.mp hnd
    refine hpwkeys.imp_of_mem ?_
    intro a b ha hb hab x hx y hy
    have hxf : x ∈ links.enum.filter (fun p => p.2.domain = a.1) := by
      rw [← mem_group_filter links a ha]; exact hx
    have hyf : y ∈ links.enum.filter (fun p => p.2.domain = b.1) := by
      rw [← mem_group_filter links b hb]; exact hy
    have hxd : x.2.domain = a.1 := by
      have := (List.mem_filter.mp hxf).2; simpa using this
    have hyd : y.2.domain = b.1 := by
      have := (List.mem_filter.mp hyf).2; simpa using this
    have hxg : links[x.1]? = some x.2 := by
      simpa using List.mem_enum_iff_getElem?.mp (List.mem_filter.mp hxf).1
    have hyg : links[y.1]? = some y.2 := by
      simpa using List.mem_enum_iff_getElem?.mp (List.mem_filter.mp hyf).1
    have hxmem : x.2 ∈ links := List.getElem?_mem hxg
    have hymem : y.2 ∈ links := List.getElem?_mem hyg
    constructor
    · intro he
      rw [he, hyg] at hxg
      apply hab
      rw [← hxd, ← hyd, Option.some.inj hxg]
    · intro hurl
      exact absurd (hxd.symm.trans ((h x.2 hxmem y.2 hymem hurl).trans hyd))
        hab

theorem placeLink_length :
    ∀ (origs : List LinkInfo) (acc : List (Option LinkInfo)) (l : LinkInfo),
      (placeLink origs acc l).length = acc.length := by
  intro origs
  induction origs with
  | nil => intro acc l; rfl
  | cons o os ih =>
    intro acc l
    cases acc with
    | nil => rfl
    | cons s ss =>
      by_cases hc : o.url = l.url ∧ s = none
      · simp [placeLink, hc]
      · simp [placeLink, hc, ih]

/-- When slot i is the first unfilled slot whose url matches, the aggregation
step writes exactly there. -/
theorem placeLink_eq_set (l : LinkInfo) :
    ∀ (origs : List LinkInfo) (acc : List (Option LinkInfo)) (i : Nat)
      (o : LinkInfo),
      acc.length = origs.length →
      origs[i]? = some o → o.url = l.url →
      acc[i]? = some none →
      (∀ j, j < i → ∀ o2 s2, origs[j]? = some o2 → acc[j]? = some s2 →
        o2.url = l.url → s2 ≠ none) →
      placeLink origs acc l = acc.set i (some l) := by
  intro origs
  induction origs with
  | nil => intro acc i o _ ho; simp at ho
  | cons o1 os ih =>
    intro acc i o hlen ho hou hempty hbefore
    cases acc with
    | nil => simp at hlen
    | cons s ss =>
      cases i with
      | zero =>
        have ho1 : o1 = o := by simpa using ho
        have hs : s = none := by simpa using hempty
        subst ho1
        subst hs
        simp [placeLink, hou]
      | succ i =>
        have hc : ¬ (o1.url = l.url ∧ s = none) := by
          rintro ⟨hu, hs⟩
          exact (hbefore 0 (Nat.succ_pos i) o1 s (by simp) (by simp [hs]) hu) hs
        simp only [placeLink, if_neg hc, List.set_cons_succ]
        congr 1
        refine ih ss i o ?_ ?_ hou ?_ ?_
        · simpa using hlen
        · simpa using ho
        · simpa using hempty
        · intro j hj o2 s2 ho2 hs2 hu2
          exact hbefore (j + 1) (Nat.succ_lt_succ hj) o2 s2
            (by simpa using ho2) (by simpa using hs2) hu2

/-- Main aggregation lemma: if the stream consists of the probed images of
genuine (index, link) pairs, each index occurring at most once, with
equal-url pairs arriving in increasing index order, then the fold of the
aggregation loop fills exactly the slot of each arriving index. -/
theorem foldl_place_getElem (links : List LinkInfo)
    (f : Nat × LinkInfo → LinkInfo) (hf : ∀ p, (f p).url = p.2.url) :
    ∀ (S : List (Nat × LinkInfo)) (acc : List (Option LinkInfo)),
      acc.length = links.length →
      (∀ p ∈ S, links[p.1]? = some p.2) →
      S.Pairwise (fun p q => p.1 ≠ q.1 ∧ (p.2.url = q.2.url → p.1 < q.1)) →
      (∀ j : Nat, acc[j]? = (links[j]?).map (fun lj =>
          if ∃ p ∈ S, p.1 = j then none else some (f (j, lj)))) →
      ∀ j : Nat, ((S.map f).foldl (placeLink links) acc)[j]?
        = (links[j]?).map (fun lj => some (f (j, lj))) := by
  intro S
  induction S with
  | nil =>
    intro acc _ _ _ hacc j
    have h := hacc j
    simpa using h
  | cons p rest ih =>
    intro acc hlen hmem hpw hacc j
    have hpmem : links[p.1]? = some p.2 := hmem p (List.mem_cons_self p _)
    have hplt : p.1 < links.length := by
      rcases List.getElem?_eq_some.mp hpmem with ⟨h, _⟩
      exact h
    have hpendhead : ∃ q ∈ p :: rest, q.1 = p.1 :=
      ⟨p, List.mem_cons_self p _, rfl⟩
    have hR : ∀ q ∈ rest, p.1 ≠ q.1 ∧ (p.2.url = q.2.url → p.1 < q.1) :=
      (List.pairwise_cons.mp hpw).1
    have hstep : placeLink links acc (f p) = acc.set p.1 (some (f p)) := by
      refine placeLink_eq_set (f p) links acc p.1 p.2 hlen hpmem
        (hf p).symm ?_ ?_
      · rw [hacc p.1, hpmem]
        simp [hpendhead]
      · intro j2 hj2 o2 s2 ho2 hs2 hu2
        have hpend2 : ¬ ∃ q ∈ p :: rest, q.1 = j2 := by
          rintro ⟨q, hq, rfl⟩
          rcases List.mem_cons.mp hq with rfl | hqrest
          · exact Nat.lt_irrefl _ hj2
          · have hq2 : links[q.1]? = some q.2 := hmem q (List.mem_cons_of_mem _ hqrest)
            rw [ho2] at hq2
            have hq2o : q.2 = o2 := (Option.some.inj hq2).symm
            have hurl : p.2.url = q.2.url := by
              rw [hq2o, hu2, hf p]
            exact Nat.lt_irrefl _ (Nat.lt_trans ((hR q hqrest).2 hurl) hj2)
        have h0 := hacc j2
        rw [hs2, ho2] at h0
        simp only [Option.map_some'] at h0
        rw [if_neg hpend2] at h0
        rw [Option.some.inj h0]
        simp
    rw [List.map_cons, List.foldl_cons, hstep]
    refine ih (acc.set p.1 (some (f p))) ?_ ?_ ?_ ?_ j
    · simpa using hlen
    · intro q hq; exact hmem q (List.mem_cons_of_mem _ hq)
    · exact (List.pairwise_cons.mp hpw).2
    · intro j2
      rcases eq_or_ne p.1 j2 with rfl | hne
      · rw [List.getElem?_set_self (by omega), hpmem]
        have hpend3 : ¬ ∃ q ∈ rest, q.1 = p.1 := by
          rintro ⟨q, hq, hq1⟩
          exact (hR q hq).1 hq1.symm
        simp [hpend3]
      · rw [List.getElem?_set_ne hne, hacc j2]
        have hiff : (∃ q ∈ p :: rest, q.1 = j2) ↔ (∃ q ∈ rest, q.1 = j2) := by
          constructor
          · rintro ⟨q, hq, rfl⟩
            rcases List.mem_cons.mp hq with rfl | hqrest
            · exact absurd rfl hne
            · exact ⟨q, hqrest, rfl⟩
          · rintro ⟨q, hq, rfl⟩
            exact ⟨q, List.mem_cons_of_mem _ hq, rfl⟩
        by_cases hx : ∃ q ∈ rest, q.1 = j2
        · simp [hx, hiff.mpr hx]
        · have : ¬ ∃ q ∈ p :: rest, q.1 = j2 := fun hc => hx (hiff.mp hc)
          simp [hx, this, hne]

theorem placeLink_emptyCount :
    ∀ (origs : List LinkInfo) (acc : List (Option LinkInfo)) (l : LinkInfo)
      (u : String),
      (∃ q ∈ origs.zip acc, q.1.url = l.url ∧ q.2 = none) →
      emptyCount origs (placeLink origs acc l) u
          + (if u = l.url then 1 else 0)
        = emptyCount origs acc u := by
  intro origs
  induction origs with
  | nil => rintro acc l u ⟨q, hq, _⟩; simp at hq
  | cons o os ih =>
    rintro acc l u hex
    cases acc with
    | nil =>
      rcases hex with ⟨q, hq, _⟩
      simp at hq
    | cons s ss =>
      by_cases hc : o.url = l.url ∧ s = none
      · simp only [placeLink, if_pos hc, emptyCount, List.zip_cons_cons,
          List.countP_cons]
        have hnew : ¬ ((o, (some l : Option LinkInfo)).1.url = u
            ∧ (o, (some l : Option LinkInfo)).2 = none) := by
          rintro ⟨_, hno⟩
          simp at hno
        have hold : ((o, s).1.url = u ∧ (o, s).2 = none) ↔ (o.url = u) := by
          simp [hc.2]
        by_cases hu : u = l.url
        · have : o.url = u := by rw [hc.1, hu]
          simp [hnew, hold, this, hu, hc.2]
        · have : ¬ o.url = u := by
            rw [hc.1]; exact fun he => hu he.symm
          simp [hnew, hold, this, hu, hc.2]
      · simp only [placeLink, if_neg hc, emptyCount, List.zip_cons_cons,
          List.countP_cons]
        have hex2 : ∃ q ∈ os.zip ss, q.1.url = l.url ∧ q.2 = none := by
          rcases hex with ⟨q, hq, hql⟩
          rcases List.mem_cons.mp (by simpa using hq) with rfl | hq2
          · exact absurd hql hc
          · exact ⟨q, hq2, hql⟩
        have := ih ss l u hex2
        simp only [emptyCount] at this
        omega

theorem placeLink_noneCount :
    ∀ (origs : List LinkInfo) (acc : List (Option LinkInfo)) (l : LinkInfo),
      (∃ q ∈ origs.zip acc, q.1.url = l.url ∧ q.2 = none) →
      noneCount (placeLink origs acc l) + 1 = noneCount acc := by
  intro origs
  induction origs with
  | nil => rintro acc l ⟨q, hq, _⟩; simp at hq
  | cons o os ih =>
    rintro acc l hex
    cases acc with
    | nil =>
      rcases hex with ⟨q, hq, _⟩
      simp at hq
    | cons s ss =>
      by_cases hc : o.url = l.url ∧ s = none
      · simp [placeLink, hc.1, hc.2, noneCount, List.countP_cons]
      · simp only [placeLink, if_neg hc, noneCount, List.countP_cons]
        have hex2 : ∃ q ∈ os.zip ss, q.1.url = l.url ∧ q.2 = none := by
          rcases hex with ⟨q, hq, hql⟩
          rcases List.mem_cons.mp (by simpa using hq) with rfl | hq2
          · exact absurd hql hc
          · exact ⟨q, hq2, hql⟩
        have := ih ss l hex2
        simp only [noneCount] at this
        omega

theorem zip_replicate_none (links : List LinkInfo) :
    links.zip (List.replicate links.length (none : Option LinkInfo))
      = links.map (fun o => (o, (none : Option LinkInfo))) := by
  induction links with
  | nil => rfl
  | cons o os ih => simp [List.replicate_succ, ih]

theorem noneCount_eq_zero_of_emptyCount (links : List LinkInfo) :
    ∀ acc : List (Option LinkInfo), acc.length = links.length →
      (∀ u, emptyCount links acc u = 0) → noneCount acc = 0 := by
  intro acc hlen hall
  by_contra hne
  have hpos : 0 < noneCount acc := Nat.pos_of_ne_zero hne
  rcases List.countP_pos_iff.mp hpos with ⟨s, hs, hsnone⟩
  have hs2 : s = none := by simpa using hsnone
  subst hs2
  rcases List.getElem_of_mem hs with ⟨i, hi, hgi⟩
  have hizip : i < (links.zip acc).length := by
    simp only [List.length_zip]
    omega
  have hq : (links.zip acc)[i] = (links.get ⟨i, by omega⟩,
      (none : Option LinkInfo)) := by
    rw [List.getElem_zip, hgi]
    simp [List.get_eq_getElem]
  have hmem : (links.get ⟨i, by omega⟩, (none : Option LinkInfo))
      ∈ links.zip acc := by
    rw [← hq]
    exact List.getElem_mem hizip
  have h0 := hall (links.get ⟨i, by omega⟩).url
  simp only [emptyCount, List.countP_eq_zero] at h0
  exact (by simpa using h0 _ hmem : False)

theorem filterMap_id_length (acc : List (Option LinkInfo)) :
    noneCount acc = 0 → (acc.filterMap id).length = acc.length := by
  induction acc with
  | nil => intro _; rfl
  | cons s ss ih =>
    intro h
    cases s with
    | none => simp [noneCount, List.countP_cons] at h
    | some a =>
      have h2 : noneCount ss = 0 := by
        simpa [noneCount, List.countP_cons] using h
      simp [List.filterMap_cons, ih h2]

/-- The aggregation fold never fails to place an element: if the unfilled
slots of each url are exactly as numerous as the stream elements still to
come with that url, every slot ends up filled and the length is preserved. -/
theorem foldl_place_counts (links : List LinkInfo) :
    ∀ (stream : List LinkInfo) (acc : List (Option LinkInfo)),
      acc.length = links.length →
      (∀ u, emptyCount links acc u
        = stream.countP (fun l => l.url = u)) →
      (stream.foldl (placeLink links) acc).length = links.length ∧
      noneCount (stream.foldl (placeLink links) acc) = 0 := by
  intro stream
  induction stream with
  | nil =>
    intro acc hlen hinv
    refine ⟨by simpa using hlen, ?_⟩
    refine noneCount_eq_zero_of_emptyCount links acc hlen ?_
    intro u
    simpa using hinv u
  | cons l rest ih =>
    intro acc hlen hinv
    have hget : 0 < emptyCount links acc l.url := by
      have hc : List.countP (fun x : LinkInfo => decide (x.url = l.url))
            (l :: rest)
          = List.countP (fun x : LinkInfo => decide (x.url = l.url)) rest
            + 1 :=
        List.countP_cons_of_pos _ rest (by simp)
      rw [hinv l.url, hc]
      omega
    have hex : ∃ q ∈ links.zip acc, q.1.url = l.url ∧ q.2 = none := by
      rcases List.countP_pos_iff.mp hget with ⟨q, hq, hql⟩
      exact ⟨q, hq, by simpa using hql⟩
    have hstep := placeLink_emptyCount links acc l
    have hlen2 : (placeLink links acc l).length = links.length := by
      rw [placeLink_length]; exact hlen
    simp only [List.foldl_cons]
    refine ih (placeLink links acc l) hlen2 ?_
    intro u
    have h1 := hstep u hex
    have h2 := hinv u
    rw [List.countP_cons] at h2
    by_cases hu : u = l.url
    · have hd : (decide (l.url = u)) = true := by simp [hu]
      rw [hd] at h2
      rw [if_pos hu] at h1
      simp only [if_true] at h2
      omega
    · have hd : (decide (l.url = u)) = false := by
        simp only [decide_eq_false_iff_not]
        exact fun he => hu he.symm
      rw [hd] at h2
      rw [if_neg hu] at h1
      simp only [Bool.false_eq_true, if_false] at h2
      omega

theorem filterMap_id_map_some (l : List (Nat × LinkInfo))
    (f : Nat × LinkInfo → LinkInfo) :
    (l.map (fun p => some (f p))).filterMap id = l.map f := by
  induction l with
  | nil => rfl
  | cons p rest ih => simp [List.filterMap_cons, ih]

theorem stream_eq (oracle : Nat → TaskOutcome) (links : List LinkInfo) :
    ((domain_groups links).map (fun g => process_domain oracle g.2)).flatten
      = (streamPairs links).map (fun p => applyTask p.2 (oracle p.1)) := by
  unfold streamPairs
  rw [List.map_flatten, List.map_map]
  congr 1
  apply List.map_congr_left
  intro g _
  exact process_domain_eq_map oracle g.2

theorem stream_countP (oracle : Nat → TaskOutcome) (links : List LinkInfo)
    (u : String) :
    ((streamPairs links).map (fun p => applyTask p.2 (oracle p.1))).countP
        (fun l => l.url = u)
      = links.countP (fun l => l.url = u) := by
  rw [List.countP_map]
  have h2 := (streamPairs_perm links).countP_eq
    (fun p : Nat × LinkInfo => decide (p.2.url = u))
  have h3 : links.countP (fun l => l.url = u)
      = links.enum.countP (fun p : Nat × LinkInfo => decide (p.2.url = u)) := by
    conv_lhs => rw [← List.enumFrom_map_snd 0 links]
    rw [List.countP_map]
    rfl
  rw [h3, ← h2]
  apply List.countP_congr
  intro p _
  simp [Function.comp, applyTask_url]

theorem emptyCount_init (links : List LinkInfo) (u : String) :
    emptyCount links (List.replicate links.length none) u
      = links.countP (fun l => l.url = u) := by
  unfold emptyCount
  rw [zip_replicate_none, List.countP_map]
  apply List.countP_congr
  intro o _
  simp [Function.comp]

theorem streamPairs_cover (links : List LinkInfo) (j : Nat)
    (hj : j < links.length) :
    ∃ p ∈ streamPairs links, p.1 = j := by
  have hmem : (j, links.get ⟨j, hj⟩) ∈ links.enum := by
    rw [List.mem_enum_iff_getElem?]
    simp [List.getElem?_eq_getElem hj, List.get_eq_getElem]
  exact ⟨(j, links.get ⟨j, hj⟩), (streamPairs_perm links).mem_iff.mpr hmem,
    rfl⟩

/-- C1 (amended): for every input and every environment, the output covers
the inputs one-to-one in count; and whenever any two candidates sharing a
url also share a domain - as holds for all inputs built by the upstream
collaborator, whose domain field is derived from the url - the output is
exactly the input sequence in original order, each slot carrying its own
candidate with its own probe outcome, duplicates of a url included. -/
theorem c1_completeness_order (oracle : Nat → TaskOutcome)
    (links : List LinkInfo) :
    (check_links_ultra_fast oracle links).length = links.length ∧
    ((∀ l1 ∈ links, ∀ l2 ∈ links, l1.url = l2.url → l1.domain = l2.domain) →
      check_links_ultra_fast oracle links
        = links.enum.map (fun p => applyTask p.2 (oracle p.1))) := by
  have hstream := stream_eq oracle links
  have hshow : check_links_ultra_fast oracle links
      = ((((streamPairs links).map
            (fun p => applyTask p.2 (oracle p.1))).foldl (placeLink links)
          (List.replicate links.length none)).filterMap id) := by
    unfold check_links_ultra_fast
    rw [hstream]
  constructor
  · rw [hshow]
    have hcounts := foldl_place_counts links
      ((streamPairs links).map (fun p => applyTask p.2 (oracle p.1)))
      (List.replicate links.length none) (by simp)
      (fun u => by rw [emptyCount_init, stream_countP])
    rw [filterMap_id_length _ hcounts.2]
    exact hcounts.1
  · intro h
    have hinit : ∀ j : Nat,
        (List.replicate links.length (none : Option LinkInfo))[j]?
          = (links[j]?).map (fun lj =>
              if ∃ p ∈ streamPairs links, p.1 = j then none
              else some (applyTask lj (oracle j))) := by
      intro j
      by_cases hj : j < links.length
      · rw [List.getElem?_replicate, if_pos hj,
          List.getElem?_eq_getElem hj]
        simp only [Option.map_some']
        rw [if_pos (streamPairs_cover links j hj)]
      · rw [List.getElem?_replicate, if_neg hj,
          List.getElem?_eq_none (by omega)]
        simp
    have hget := foldl_place_getElem links
      (fun p => applyTask p.2 (oracle p.1))
      (fun p => applyTask_url p.2 (oracle p.1))
      (streamPairs links) (List.replicate links.length none) (by simp)
      (streamPairs_getElem links) (streamPairs_pairwise links h) hinit
    rw [hshow]
    have hall : (((streamPairs links).map
          (fun p => applyTask p.2 (oracle p.1))).foldl (placeLink links)
        (List.replicate links.length none))
        = links.enum.map (fun p => some (applyTask p.2 (oracle p.1))) := by
      apply List.ext_getElem?
      intro j
      rw [hget j, List.getElem?_map, List.enum_eq_enumFrom,
        List.getElem?_enumFrom]
      cases hlj : links[j]? with
      | none => simp
      | some lj => simp
    rw [hall, filterMap_id_map_some]

/-- C1 counterexample: against the claim, when two candidates share a url but
carry different domain fields, the url-based re-matching of src/main.py
lines 308-314 permutes the output: the input texts are A, B, C but the
output order is A, C, B, so the output is not in input order. -/
theorem c1_counterexample :
    (check_links_ultra_fast (fun _ => .completed (.ok 200) (.ok 200) 1)
        [{ text := "A", url := "u1", domain := "x" },
         { text := "B", url := "u", domain := "y" },
         { text := "C", url := "u", domain := "x" }]).map (fun l => l.text)
      = ["A", "C", "B"] ∧ (["A", "C", "B"] : List String) ≠ ["A", "B", "C"] := by
  constructor
  · decide
  · decide

/-- C1 witness: on the duplicate-url scenario the output is the input list in
order, each entry resolved independently. -/
theorem c1_completeness_order_witness :
    (check_links_ultra_fast c1WitnessOracle c1WitnessLinks).length
      = c1WitnessLinks.length ∧
    check_links_ultra_fast c1WitnessOracle c1WitnessLinks
      = c1WitnessLinks.enum.map
          (fun p => applyTask p.2 (c1WitnessOracle p.1)) :=
  ⟨(c1_completeness_order c1WitnessOracle c1WitnessLinks).1,
   (c1_completeness_order c1WitnessOracle c1WitnessLinks).2 (by decide)⟩

theorem collectLinks_spec (pageDomain : String) :
    ∀ (anchors : List Anchor) (seen : List String),
      ((collectLinks pageDomain anchors seen).map (fun l => l.url)).Nodup ∧
      (∀ l ∈ collectLinks pageDomain anchors seen, l.url ∉ seen) ∧
      (∀ l ∈ collectLinks pageDomain anchors seen,
        l.url.length ≤ 4096 ∧
        ∃ a ∈ anchors, l.url = normalized_url a.parsed ∧
          l.domain = (if a.parsed.netloc ≠ "" then a.parsed.netloc
            else pageDomain)) := by
  intro anchors
  induction anchors with
  | nil => intro seen; simp [collectLinks]
  | cons a rest ih =>
    intro seen
    by_cases hskip : skipHref a.href = true
    · have h := ih seen
      refine ⟨by simpa [collectLinks, hskip] using h.1, ?_, ?_⟩
      · intro l hl
        exact h.2.1 l (by simpa [collectLinks, hskip] using hl)
      · intro l hl
        rcases h.2.2 l (by simpa [collectLinks, hskip] using hl) with
          ⟨hlen, a2, ha2, hrest⟩
        exact ⟨hlen, a2, List.mem_cons_of_mem _ ha2, hrest⟩
    · rw [Bool.not_eq_true] at hskip
      by_cases hguard : normalized_url a.parsed ∈ seen
          ∨ (normalized_url a.parsed).length > 4096
      · have h := ih seen
        refine ⟨by simpa [collectLinks, hskip, hguard] using h.1, ?_, ?_⟩
        · intro l hl
          exact h.2.1 l (by simpa [collectLinks, hskip, hguard] using hl)
        · intro l hl
          rcases h.2.2 l (by simpa [collectLinks, hskip, hguard] using hl) with
            ⟨hlen, a2, ha2, hrest⟩
          exact ⟨hlen, a2, List.mem_cons_of_mem _ ha2, hrest⟩
      · have h := ih (normalized_url a.parsed :: seen)
        have hunf : collectLinks pageDomain (a :: rest) seen
            = { text := if display_text a.text ≠ "" then display_text a.text
                  else strTake (normalized_url a.parsed) 50
                url := normalized_url a.parsed
                domain := if a.parsed.netloc ≠ "" then a.parsed.netloc
                  else pageDomain }
              :: collectLinks pageDomain rest
                  (normalized_url a.parsed :: seen) := by
          simp [collectLinks, hskip, hguard]
        rw [hunf]
        refine ⟨?_, ?_, ?_⟩
        · rw [List.map_cons, List.nodup_cons]
          refine ⟨?_, h.1⟩
          intro hmem
          rcases List.mem_map.mp hmem with ⟨l, hl, hlu⟩
          exact h.2.1 l hl (by rw [hlu]; exact List.mem_cons_self _ _)
        · intro l hl
          rcases List.mem_cons.mp hl with rfl | hl2
          · intro hmem
            exact hguard (Or.inl hmem)
          · intro hmem
            exact h.2.1 l hl2 (List.mem_cons_of_mem _ hmem)
        · intro l hl
          rcases List.mem_cons.mp hl with rfl | hl2
          · have hlen : (normalized_url a.parsed).length ≤ 4096 := by
              rcases not_or.mp hguard with ⟨_, h2⟩
              omega
            exact ⟨hlen, a, List.mem_cons_self _ _, rfl, rfl⟩
          · rcases h.2.2 l hl2 with ⟨hlen, a2, ha2, hrest⟩
            exact ⟨hlen, a2, List.mem_cons_of_mem _ ha2, hrest⟩

/-- C10 counterexample: against the claim, when the page itself has an empty
domain (urlparse(base_url).netloc empty) and an anchor resolves to a url
without authority, the emitted candidate has an empty domain field. -/
theorem c10_counterexample :
    (get_links_with_selenium ""
        [{ href := some "http:///x"
           text := "t"
           parsed := ⟨"http", "", "/x", "", "", ""⟩ }]).map
      (fun l => l.domain) = [""] := by
  decide

/-- C10 (amended): every emitted candidate has a url distinct from all other
emitted urls, a url that is the reassembly of its anchor with fragment and
query cleared, a url of at most 4096 characters, and a domain equal to the
url authority or, when that is empty, the page domain; in particular the
domain is non-empty whenever the page domain is non-empty.  Candidates
failing the uniqueness or length bound are dropped, not emitted. -/
theorem c10_selenium_invariants (pageDomain : String)
    (anchors : List Anchor) :
    ((get_links_with_selenium pageDomain anchors).map
      (fun l => l.url)).Nodup ∧
    (∀ l ∈ get_links_with_selenium pageDomain anchors,
      l.url.length ≤ 4096 ∧
      ∃ a ∈ anchors, l.url = normalized_url a.parsed ∧
        l.domain = (if a.parsed.netloc ≠ "" then a.parsed.netloc
          else pageDomain)) ∧
    (pageDomain ≠ "" → ∀ l ∈ get_links_with_selenium pageDomain anchors,
      l.domain ≠ "") := by
  have h := collectLinks_spec pageDomain anchors []
  refine ⟨h.1, h.2.2, ?_⟩
  intro hpd l hl
  rcases h.2.2 l hl with ⟨_, a, _, _, hdom⟩
  rw [hdom]
  by_cases hn : a.parsed.netloc ≠ ""
  · rw [if_pos hn]; exact hn
  · rw [if_neg hn]; exact hpd

/-- C10 witness: one ordinary anchor on a page whose domain is pd. -/
theorem c10_selenium_invariants_witness :
    ((get_links_with_selenium "pd" c10WitnessAnchors).map
      (fun l => l.url)).Nodup ∧
    c10WitnessLink.url.length ≤ 4096 ∧
    c10WitnessLink.domain ≠ "" := by
  have hmem : c10WitnessLink ∈ get_links_with_selenium "pd"
      c10WitnessAnchors := by
    decide
  have h := c10_selenium_invariants "pd" c10WitnessAnchors
  exact ⟨h.1, (h.2.1 _ hmem).1, h.2.2 (by decide) _ hmem⟩
